import Mathlib

/-!
Shallow embedding of `unifold/dataset.py` (Uni-Fold data-orchestration layer)
and verification of its specification.

Numpy arrays of coordinates are modelled as lists of vectors `Fin 3 → ℚ`,
machine floats as rationals, Python dicts as association lists, and fatal
assertion errors as `Option`/`none` results.  External collaborators
(`process_features`, `add_assembly_features`, `pair_and_merge`, torch/numpy
primitives) are abstracted as parameters or modelled from their documented
behaviour.
-/

/-- Symmetry operation (`Operation = Union[str, Tuple[Rotation, Translation]]`):
either the identity string `"I"` or a (rotation, translation) pair.  The
source reshapes flat inputs to a 3×3 matrix and a 3-vector; we model them
directly in that shape. -/
inductive Operation where
  | I : Operation
  | RT (rot : Matrix (Fin 3) (Fin 3) ℚ) (trans : Fin 3 → ℚ) : Operation

/-- `process_label` (dataset.py:54): identity returns positions unchanged;
otherwise each row `p` becomes `p · Rᵀ + t`, i.e. `R.mulVec p + t`. -/
def process_label (all_atom_positions : List (Fin 3 → ℚ)) (operation : Operation) :
    List (Fin 3 → ℚ) :=
  match operation with
  | .I => all_atom_positions
  | .RT rot tv => all_atom_positions.map (fun p => rot.mulVec p + tv)

/-- Model of the global numpy random-generator state: one LCG word. -/
structure RState where
  s : ℕ
deriving DecidableEq

/-- One step of the model pseudo-random generator. -/
def nextState (s : ℕ) : ℕ := (1103515245 * s + 12345) % 2 ^ 31

/-- Model of `np.random.randint(lo, hi)`: consumes one generator step. -/
def randint (lo hi : ℕ) (st : RState) : ℕ × RState :=
  (lo + nextState st.s % (hi - lo), ⟨nextState st.s⟩)

/-- Model of `np.random.rand()`: a rational in `[0,1)`, one generator step. -/
def npRand (st : RState) : ℚ × RState :=
  ((nextState st.s : ℚ) / 2 ^ 31, ⟨nextState st.s⟩)

/-- Deterministic seed derived from `(seed, batch_idx, key)`. -/
def mkSeed (seed batch_idx : ℕ) (key : String) : ℕ :=
  (seed * 2654435761 + batch_idx * 40503 +
    (key.toList.map Char.toNat).sum) % 2 ^ 32

/-- Modelled from the spec: `unicore.data.data_utils.numpy_seed` (external
collaborator) is a scoped-seed context manager that saves the global random
state, reseeds deterministically from its arguments, runs the body, and
restores the saved global state on exit. -/
def numpy_seed {α : Type} (seedVal : ℕ) (body : RState → α × RState)
    (globalState : RState) : α × RState :=
  ((body ⟨seedVal⟩).1, globalState)

/-- The configuration fields `process` reads for its recycling draws. -/
structure DataConfig where
  max_recycling_iters : ℕ
  use_clamped_fape_prob : ℚ

/-- The recycling-related head of `process` (dataset.py:182-192): in train
mode, draw `num_recycling_iters` from `[0, max_recycling_iters]` and a
Bernoulli `use_clamped_fape` inside the `(seed, batch_idx, "recycling")`
seed scope; otherwise use the maximum count and always clamp.  Returns the
pair of drawn values together with the resulting global random state. -/
def processRecycling (cfg : DataConfig) (mode : String) (seed batch_idx : ℕ)
    (g : RState) : (ℕ × Bool) × RState :=
  if mode = "train" then
    numpy_seed (mkSeed seed batch_idx "recycling")
      (fun st =>
        let r1 := randint 0 (cfg.max_recycling_iters + 1) st
        let r2 := npRand r1.2
        ((r1.1, r2.1 < cfg.use_clamped_fape_prob), r2.2)) g
  else
    ((cfg.max_recycling_iters, true), g)

/-- C1: in train mode, the `num_recycling_iters` / `use_clamped_fape` draws of
`process` depend only on `(seed, batch_idx)`: two calls with identical
`(seed, batch_idx)` agree on both values no matter which unrelated random
draws changed the global state in between (the drawn values are independent
of the incoming global state), and the global random state is restored
afterwards (the call returns the state it was given). -/
theorem process_recycling_reproducible (cfg : DataConfig) (seed batch_idx : ℕ)
    (g g' : RState) :
    (processRecycling cfg "train" seed batch_idx g).1 =
      (processRecycling cfg "train" seed batch_idx g').1 ∧
    (processRecycling cfg "train" seed batch_idx g).2 = g := by
  constructor <;> rfl

/-- C2: applying operation `"I"` in `process_label` returns the coordinate
array unchanged, and applying a rotation–translation pair `(R, t)` followed by
the inverse rigid transform `(Rᵀ, −t·R)` returns the original array (exactly,
in the rational model of floats). -/
theorem process_label_roundtrip :
    (∀ pos : List (Fin 3 → ℚ), process_label pos .I = pos) ∧
    (∀ (pos : List (Fin 3 → ℚ)) (R : Matrix (Fin 3) (Fin 3) ℚ) (t : Fin 3 → ℚ),
      R.transpose * R = 1 →
      process_label (process_label pos (.RT R t))
        (.RT R.transpose (-(R.transpose.mulVec t))) = pos) := by
  constructor
  · intro pos
    rfl
  · intro pos R t hR
    simp only [process_label, List.map_map]
    have hmap : ∀ p : Fin 3 → ℚ,
        R.transpose.mulVec (R.mulVec p + t) + -(R.transpose.mulVec t) = p := by
      intro p
      rw [Matrix.mulVec_add, Matrix.mulVec_mulVec, hR, Matrix.one_mulVec]
      abel
    calc pos.map ((fun p => R.transpose.mulVec p + -(R.transpose.mulVec t)) ∘
          (fun p => R.mulVec p + t))
        = pos.map id := by
          apply List.map_congr_left
          intro p _
          exact hmap p
      _ = pos := List.map_id pos

/-- Witness for C2 at a concrete input: the 90° rotation about the z-axis with
translation `(1,0,0)` applied to the single point `(1,2,3)` round-trips. -/
theorem process_label_roundtrip_witness :
    (Matrix.transpose (Matrix.of ![![0, -1, 0], ![1, 0, 0], ![0, 0, 1]]) *
      Matrix.of ![![(0 : ℚ), -1, 0], ![1, 0, 0], ![0, 0, 1]] = 1) ∧
    process_label
      (process_label [![1, 2, 3]]
        (.RT (Matrix.of ![![(0 : ℚ), -1, 0], ![1, 0, 0], ![0, 0, 1]]) ![1, 0, 0]))
      (.RT (Matrix.transpose (Matrix.of ![![(0 : ℚ), -1, 0], ![1, 0, 0], ![0, 0, 1]]))
        (-(Matrix.mulVec
            (Matrix.transpose (Matrix.of ![![(0 : ℚ), -1, 0], ![1, 0, 0], ![0, 0, 1]]))
            ![1, 0, 0]))) = [![1, 2, 3]] := by
  have hT : Matrix.transpose (Matrix.of ![![(0 : ℚ), -1, 0], ![1, 0, 0], ![0, 0, 1]]) =
      Matrix.of ![![(0 : ℚ), 1, 0], ![-1, 0, 0], ![0, 0, 1]] := by
    ext i j
    fin_cases i <;> fin_cases j <;> rfl
  have hR : Matrix.transpose (Matrix.of ![![(0 : ℚ), -1, 0], ![1, 0, 0], ![0, 0, 1]]) *
      Matrix.of ![![(0 : ℚ), -1, 0], ![1, 0, 0], ![0, 0, 1]] = 1 := by
    rw [hT]
    ext i j
    fin_cases i <;> fin_cases j <;>
      norm_num [Matrix.mul_apply, Fin.sum_univ_three, Matrix.one_apply,
        Matrix.vecHead, Matrix.vecTail, Fin.ext_iff]
  exact ⟨hR, process_label_roundtrip.2 [![1, 2, 3]] _ ![1, 0, 0] hR⟩

/-- Model of `np.unique` (sorted distinct values): insert a value into a
sorted duplicate-free list. -/
def insertSorted (v : ℤ) : List ℤ → List ℤ
  | [] => [v]
  | a :: t => if v < a then v :: a :: t else if v = a then a :: t else a :: insertSorted v t

/-- Model of `np.unique`: the sorted list of the distinct values. -/
def npUnique (xs : List ℤ) : List ℤ := xs.foldr insertSorted []

/-- Model of `np.cumsum` on a list of naturals. -/
def npCumsum (xs : List ℕ) : List ℕ := (xs.scanl (· + ·) 0).tail

/-- `calculate_offsets` (dataset.py:216-221): unique asym ids, per-id
residue counts via `np.sum(asym_ids == u)` (a sum of 0/1 indicators), and
`np.cumsum([0] + seq_lens)`. -/
def calculate_offsets (asym_ids : List ℤ) : List ℕ :=
  let uniqueAsymIds := npUnique asym_ids
  let seq_lens := uniqueAsymIds.map
    (fun v => (asym_ids.map (fun a => if a = v then 1 else 0)).sum)
  npCumsum (0 :: seq_lens)

/-- Stated from the spec sentence: the cumulative sums of a leading 0
followed by the given per-chain residue counts. -/
def partialSums : List ℕ → List ℕ
  | [] => [0]
  | c :: cs => 0 :: (partialSums cs).map (c + ·)

/-- Stated from the spec sentence: the per-chain residue counts, one count
per distinct asym id in increasing id order. -/
def chainCounts (asym_ids : List ℤ) : List ℕ :=
  (npUnique asym_ids).map (fun v => asym_ids.count v)

/-- A flattened complex built from per-chain runs: chain `i` contributes
`cs[i]` consecutive residues carrying asym id `us[i]`. -/
def runsList : List ℤ → List ℕ → List ℤ
  | u :: us, c :: cs => List.replicate c u ++ runsList us cs
  | _, _ => []

theorem sum_indicator_eq_count (v : ℤ) (xs : List ℤ) :
    (xs.map (fun a => if a = v then 1 else 0)).sum = xs.count v := by
  induction xs with
  | nil => simp
  | cons a t ih =>
    by_cases h : a = v <;> simp [h, ih, List.count_cons, Nat.add_comm]

theorem scanl_add_shift (cs : List ℕ) : ∀ a b : ℕ,
    List.scanl (· + ·) (a + b) cs = (List.scanl (· + ·) b cs).map (a + ·) := by
  induction cs with
  | nil => intro a b; rfl
  | cons c t ih =>
    intro a b
    simp only [List.scanl_cons, List.cons_append, List.nil_append, List.map_cons]
    rw [Nat.add_assoc, ih a (b + c)]

theorem partialSums_eq_scanl (cs : List ℕ) :
    partialSums cs = List.scanl (· + ·) 0 cs := by
  induction cs with
  | nil => rfl
  | cons c t ih =>
    simp only [partialSums, List.scanl_cons, List.cons_append, List.nil_append, ih]
    rw [show (0 : ℕ) + c = c + 0 by omega, scanl_add_shift]

theorem calculate_offsets_eq_partialSums (asym_ids : List ℤ) :
    calculate_offsets asym_ids = partialSums (chainCounts asym_ids) := by
  simp only [calculate_offsets, chainCounts]
  have hmap : (npUnique asym_ids).map
      (fun v => (asym_ids.map (fun a => if a = v then 1 else 0)).sum) =
      (npUnique asym_ids).map (fun v => asym_ids.count v) := by
    apply List.map_congr_left
    intro v _
    exact sum_indicator_eq_count v asym_ids
  rw [hmap, partialSums_eq_scanl]
  unfold npCumsum
  rw [List.scanl_cons]
  rfl

theorem insertSorted_idem (v : ℤ) (l : List ℤ) :
    insertSorted v (insertSorted v l) = insertSorted v l := by
  induction l with
  | nil => simp [insertSorted]
  | cons a t ih =>
    by_cases h1 : v < a
    · simp [insertSorted, h1, lt_irrefl]
    · by_cases h2 : v = a
      · simp [insertSorted, h1, h2]
      · simp only [insertSorted, if_neg h1, if_neg h2]
        rw [ih]

theorem foldr_insertSorted_replicate (v : ℤ) (l : List ℤ) :
    ∀ c : ℕ, 0 < c → (List.replicate c v).foldr insertSorted l = insertSorted v l := by
  intro c
  induction c with
  | zero => omega
  | succ n ih =>
    intro _
    rcases Nat.eq_zero_or_pos n with h0 | hpos
    · subst h0; rfl
    · simp only [List.replicate_succ, List.foldr_cons]
      rw [ih hpos, insertSorted_idem]

theorem insertSorted_below (v : ℤ) (l : List ℤ) (h : ∀ x ∈ l, v < x) :
    insertSorted v l = v :: l := by
  cases l with
  | nil => rfl
  | cons a t => simp [insertSorted, h a (List.mem_cons_self a t)]

theorem npUnique_runsList (us : List ℤ) : ∀ cs : List ℕ,
    us.Sorted (· < ·) → us.length = cs.length → (∀ c ∈ cs, 0 < c) →
    npUnique (runsList us cs) = us := by
  induction us with
  | nil => intro cs _ _ _; cases cs <;> rfl
  | cons u ut ih =>
    intro cs hsort hlen hpos
    cases cs with
    | nil => simp at hlen
    | cons c ct =>
      have hsort' := List.sorted_cons.mp hsort
      have hrec : npUnique (runsList ut ct) = ut := by
        apply ih ct hsort'.2
        · simpa using hlen
        · intro x hx; exact hpos x (List.mem_cons_of_mem c hx)
      show npUnique (List.replicate c u ++ runsList ut ct) = u :: ut
      unfold npUnique
      rw [List.foldr_append]
      have : (runsList ut ct).foldr insertSorted [] = ut := hrec
      rw [this, foldr_insertSorted_replicate u ut c (hpos c (List.mem_cons_self c ct))]
      exact insertSorted_below u ut hsort'.1

theorem count_runsList_eq_zero (v : ℤ) (us : List ℤ) : ∀ cs : List ℕ,
    v ∉ us → (runsList us cs).count v = 0 := by
  induction us with
  | nil => intro cs _; cases cs <;> rfl
  | cons u ut ih =>
    intro cs hv
    cases cs with
    | nil => rfl
    | cons c ct =>
      show (List.replicate c u ++ runsList ut ct).count v = 0
      rw [List.count_append, List.count_replicate, ih ct (fun h => hv (List.mem_cons_of_mem u h))]
      have : u ≠ v := fun h => hv (h ▸ List.mem_cons_self u ut)
      simp [this]

theorem chainCounts_runsList (us : List ℤ) : ∀ cs : List ℕ,
    us.Sorted (· < ·) → us.length = cs.length → (∀ c ∈ cs, 0 < c) →
    chainCounts (runsList us cs) = cs := by
  induction us with
  | nil =>
    intro cs _ hlen _
    cases cs with
    | nil => rfl
    | cons c ct => simp at hlen
  | cons u ut ih =>
    intro cs hsort hlen hpos
    cases cs with
    | nil => simp at hlen
    | cons c ct =>
      have hsort' := List.sorted_cons.mp hsort
      have hlen' : ut.length = ct.length := by simpa using hlen
      have hpos' : ∀ x ∈ ct, 0 < x := fun x hx => hpos x (List.mem_cons_of_mem c hx)
      have hnotmem : u ∉ ut := fun h => lt_irrefl u (hsort'.1 u h)
      unfold chainCounts
      rw [npUnique_runsList (u :: ut) (c :: ct) hsort hlen hpos]
      simp only [List.map_cons, List.cons.injEq]
      constructor
      · show (List.replicate c u ++ runsList ut ct).count u = c
        rw [List.count_append, List.count_replicate,
          count_runsList_eq_zero u ut ct hnotmem]
        simp
      · have hmapeq : ut.map (fun v => (runsList (u :: ut) (c :: ct)).count v) =
            ut.map (fun v => (runsList ut ct).count v) := by
          apply List.map_congr_left
          intro v hv
          show (List.replicate c u ++ runsList ut ct).count v = _
          rw [List.count_append, List.count_replicate]
          have : u ≠ v := fun h => hnotmem (h ▸ hv)
          simp [this]
        calc ut.map (fun v => (runsList (u :: ut) (c :: ct)).count v)
            = ut.map (fun v => (runsList ut ct).count v) := hmapeq
          _ = (npUnique (runsList ut ct)).map (fun v => (runsList ut ct).count v) := by
              rw [npUnique_runsList ut ct hsort'.2 hlen' hpos']
          _ = ct := ih ct hsort'.2 hlen' hpos'

/-- C6: `calculate_offsets` returns the cumulative sums of a leading 0
followed by the per-chain residue counts (for every asym-id tensor), and on
a complex flattened as consecutive per-chain runs (chain `i` contributing
`cs[i]` residues with asym id `us[i]`) the `i`-th chain's residues begin at
offset `cs[0] + ... + cs[i-1]`; in particular on `[0,0,1,1,1]` it returns
`[0,2,5]`. -/
theorem calculate_offsets_cumsum :
    (∀ asym_ids : List ℤ,
      calculate_offsets asym_ids = partialSums (chainCounts asym_ids)) ∧
    (∀ (us : List ℤ) (cs : List ℕ), us.Sorted (· < ·) → us.length = cs.length →
      (∀ c ∈ cs, 0 < c) → calculate_offsets (runsList us cs) = partialSums cs) := by
  refine ⟨calculate_offsets_eq_partialSums, ?_⟩
  intro us cs hs hl hp
  rw [calculate_offsets_eq_partialSums, chainCounts_runsList us cs hs hl hp]

/-- Witness for C6: the spec's concrete example, asym ids `[0,0,1,1,1]`
(two chains of 2 and 3 residues), yields offsets `[0,2,5]`. -/
theorem calculate_offsets_cumsum_witness :
    List.Sorted (· < ·) [(0 : ℤ), 1] ∧ (∀ c ∈ [2, 3], 0 < c) ∧
    calculate_offsets [0, 0, 1, 1, 1] = [0, 2, 5] := by
  have hs : List.Sorted (· < ·) [(0 : ℤ), 1] := by decide
  refine ⟨hs, by decide, ?_⟩
  exact calculate_offsets_cumsum.2 [0, 1] [2, 3] hs rfl (by decide)

/-- Association-list lookup modelling Python dict access (`d[k]` /
`k in d`). -/
def alookup (k : String) : List (String × String) → Option String
  | [] => none
  | p :: t => if k = p.1 then some p.2 else alookup k t

/-- Inner loop of `UnifoldDataset._inverse_map` (dataset.py:501-512) for one
`(ent, refs)` entry: for each `ref`, if `ref` is already present the stored
entity must equal `ent` (`assert ent == ent_2`, modelled as `none` on
failure), otherwise `inverse_mapping[ref] = ent`.  Re-assigning an equal
value leaves the dict unchanged, so that branch keeps the accumulator. -/
def insertRefs (ent : String) : List String → List (String × String) →
    Option (List (String × String))
  | [], inv => some inv
  | ref :: rest, inv =>
    match alookup ref inv with
    | some ent_2 => if ent = ent_2 then insertRefs ent rest inv else none
    | none => insertRefs ent rest (inv ++ [(ref, ent)])

/-- Outer loop of `_inverse_map` over the `mapping.items()` entries. -/
def inverseMapAux : List (String × List String) → List (String × String) →
    Option (List (String × String))
  | [], inv => some inv
  | e :: t, inv =>
    match insertRefs e.1 e.2 inv with
    | none => none
    | some inv' => inverseMapAux t inv'

/-- `UnifoldDataset._inverse_map`: invert a sequence-id → label-ids mapping;
a label id owned by two distinct sequence ids is a fatal assertion
(`none`). -/
def _inverse_map (mapping : List (String × List String)) :
    Option (List (String × String)) :=
  inverseMapAux mapping []

theorem alookup_append_of_some {k v : String} {inv l : List (String × String)}
    (h : alookup k inv = some v) : alookup k (inv ++ l) = some v := by
  induction inv with
  | nil => simp [alookup] at h
  | cons p t ih =>
    by_cases hk : k = p.1
    · simp only [alookup, if_pos hk] at h
      simp [alookup, hk, h]
    · simp only [alookup, if_neg hk] at h
      simpa [alookup, hk] using ih h

theorem alookup_append_self {k v : String} {inv : List (String × String)}
    (h : alookup k inv = none) : alookup k (inv ++ [(k, v)]) = some v := by
  induction inv with
  | nil => simp [alookup]
  | cons p t ih =>
    by_cases hk : k = p.1
    · simp [alookup, hk] at h
    · simp only [alookup, if_neg hk] at h
      simpa [alookup, hk] using ih h

theorem insertRefs_error {ref e : String} (refs : List String) :
    ∀ (ent : String) (inv : List (String × String)),
    alookup ref inv = some e → ent ≠ e → ref ∈ refs →
    insertRefs ent refs inv = none := by
  induction refs with
  | nil => intro ent inv _ _ hmem; simp at hmem
  | cons r rest ih =>
    intro ent inv hlook hne hmem
    by_cases hr : r = ref
    · subst hr
      simp only [insertRefs, hlook, if_neg hne]
    · have hmem' : ref ∈ rest := by
        rcases List.mem_cons.mp hmem with h | h
        · exact absurd h.symm hr
        · exact h
      cases hcase : alookup r inv with
      | some ent_2 =>
        simp only [insertRefs, hcase]
        by_cases hent : ent = ent_2
        · rw [if_pos hent]
          exact ih ent inv hlook hne hmem'
        · rw [if_neg hent]
      | none =>
        simp only [insertRefs, hcase]
        exact ih ent (inv ++ [(r, ent)]) (alookup_append_of_some hlook) hne hmem'

theorem insertRefs_preserves {k v : String} (refs : List String) :
    ∀ (ent : String) (inv inv' : List (String × String)),
    insertRefs ent refs inv = some inv' → alookup k inv = some v →
    alookup k inv' = some v := by
  induction refs with
  | nil =>
    intro ent inv inv' hins hlook
    simp only [insertRefs, Option.some.injEq] at hins
    exact hins ▸ hlook
  | cons r rest ih =>
    intro ent inv inv' hins hlook
    cases hcase : alookup r inv with
    | some ent_2 =>
      simp only [insertRefs, hcase] at hins
      by_cases hent : ent = ent_2
      · rw [if_pos hent] at hins
        exact ih ent inv inv' hins hlook
      · rw [if_neg hent] at hins
        exact absurd hins (by simp)
    | none =>
      simp only [insertRefs, hcase] at hins
      exact ih ent (inv ++ [(r, ent)]) inv' hins (alookup_append_of_some hlook)

theorem insertRefs_sets {ref : String} (refs : List String) :
    ∀ (ent : String) (inv inv' : List (String × String)),
    insertRefs ent refs inv = some inv' → ref ∈ refs →
    alookup ref inv' = some ent := by
  induction refs with
  | nil => intro ent inv inv' _ hmem; simp at hmem
  | cons r rest ih =>
    intro ent inv inv' hins hmem
    by_cases hr : r = ref
    · subst hr
      cases hcase : alookup r inv with
      | some ent_2 =>
        simp only [insertRefs, hcase] at hins
        by_cases hent : ent = ent_2
        · rw [if_pos hent] at hins
          exact insertRefs_preserves rest ent inv inv' hins (hent ▸ hcase)
        · rw [if_neg hent] at hins
          exact absurd hins (by simp)
      | none =>
        simp only [insertRefs, hcase] at hins
        exact insertRefs_preserves rest ent _ inv' hins (alookup_append_self hcase)
    · have hmem' : ref ∈ rest := by
        rcases List.mem_cons.mp hmem with h | h
        · exact absurd h.symm hr
        · exact h
      cases hcase : alookup r inv with
      | some ent_2 =>
        simp only [insertRefs, hcase] at hins
        by_cases hent : ent = ent_2
        · rw [if_pos hent] at hins
          exact ih ent inv inv' hins hmem'
        · rw [if_neg hent] at hins
          exact absurd hins (by simp)
      | none =>
        simp only [insertRefs, hcase] at hins
        exact ih ent _ inv' hins hmem'

theorem inverseMapAux_error {ref e ent2 : String} {refs2 : List String}
    (m : List (String × List String)) :
    ∀ inv : List (String × String),
    alookup ref inv = some e → (ent2, refs2) ∈ m →
    ref ∈ refs2 → ent2 ≠ e → inverseMapAux m inv = none := by
  induction m with
  | nil => intro inv _ hmem; simp at hmem
  | cons hd t ih =>
    obtain ⟨ent1, refs1⟩ := hd
    intro inv hlook hmem hrefmem hne
    cases hins : insertRefs ent1 refs1 inv with
    | none => simp only [inverseMapAux, hins]
    | some inv' =>
      simp only [inverseMapAux, hins]
      rcases List.mem_cons.mp hmem with hcase | hcase
      · exfalso
        obtain ⟨h1, h2⟩ := Prod.mk.injEq .. ▸ hcase
        subst h1 h2
        have : insertRefs ent2 refs2 inv = none :=
          insertRefs_error refs2 ent2 inv hlook hne hrefmem
        rw [this] at hins
        exact Option.noConfusion hins
      · exact ih inv' (insertRefs_preserves refs1 ent1 inv inv' hins hlook)
          hcase hrefmem hne

theorem inverseMapAux_conflict {ref ent1 ent2 : String} {refs1 refs2 : List String}
    (m : List (String × List String)) :
    ∀ inv : List (String × String),
    (ent1, refs1) ∈ m → (ent2, refs2) ∈ m → ent1 ≠ ent2 →
    ref ∈ refs1 → ref ∈ refs2 → inverseMapAux m inv = none := by
  induction m with
  | nil => intro inv h1 _ _ _ _; simp at h1
  | cons hd t ih =>
    obtain ⟨enth, refsh⟩ := hd
    intro inv h1 h2 hne hr1 hr2
    cases hins : insertRefs enth refsh inv with
    | none => simp only [inverseMapAux, hins]
    | some inv' =>
      simp only [inverseMapAux, hins]
      rcases List.mem_cons.mp h1 with hc1 | hc1
      · obtain ⟨he1, hrf1⟩ := Prod.mk.injEq .. ▸ hc1
        subst he1 hrf1
        rcases List.mem_cons.mp h2 with hc2 | hc2
        · obtain ⟨he2, _⟩ := Prod.mk.injEq .. ▸ hc2
          exact absurd he2.symm hne
        · exact inverseMapAux_error t inv'
            (insertRefs_sets refs1 ent1 inv inv' hins hr1) hc2 hr2 hne.symm
      · rcases List.mem_cons.mp h2 with hc2 | hc2
        · obtain ⟨he2, hrf2⟩ := Prod.mk.injEq .. ▸ hc2
          subst he2 hrf2
          exact inverseMapAux_error t inv'
            (insertRefs_sets refs2 ent2 inv inv' hins hr2) hc1 hr1 hne
        · exact ih inv' hc1 hc2 hne hr1 hr2

/-- C3: `_inverse_map` on `[("seqA", ["c1","c2"])]` returns
`{"c1": "seqA", "c2": "seqA"}`, and on every mapping in which some label id
appears under two distinct sequence ids it hits the fatal assertion
(returns `none`) instead of returning an inverse map. -/
theorem inverse_map_spec :
    (_inverse_map [("seqA", ["c1", "c2"])] =
      some [("c1", "seqA"), ("c2", "seqA")]) ∧
    (∀ (mapping : List (String × List String)) (ent1 ent2 ref : String)
      (refs1 refs2 : List String),
      (ent1, refs1) ∈ mapping → (ent2, refs2) ∈ mapping → ent1 ≠ ent2 →
      ref ∈ refs1 → ref ∈ refs2 → _inverse_map mapping = none) := by
  refine ⟨rfl, ?_⟩
  intro mapping ent1 ent2 ref refs1 refs2 h1 h2 hne hr1 hr2
  exact inverseMapAux_conflict mapping [] h1 h2 hne hr1 hr2

/-- Witness for C3: the spec's duplicated mapping
`{"seqA": ["c1"], "seqB": ["c1"]}` is a fatal construction-time error. -/
theorem inverse_map_spec_witness :
    ("seqA", ["c1"]) ∈ [("seqA", ["c1"]), ("seqB", ["c1"])] ∧
    ("seqB", ["c1"]) ∈ [("seqA", ["c1"]), ("seqB", ["c1"])] ∧
    "seqA" ≠ "seqB" ∧
    _inverse_map [("seqA", ["c1"]), ("seqB", ["c1"])] = none := by
  refine ⟨by simp, by simp, by decide, ?_⟩
  exact inverse_map_spec.2 [("seqA", ["c1"]), ("seqB", ["c1"])]
    "seqA" "seqB" "c1" ["c1"] ["c1"]
    (by simp) (by simp) (by decide) (by simp) (by simp)

/-- A ground-truth label record restricted to the four keys `load_single_label`
keeps: `aatype`, `all_atom_positions`, `all_atom_mask`, `resolution`. -/
structure LabelRec where
  aatype : List ℤ
  all_atom_positions : List (Fin 3 → ℚ)
  all_atom_mask : List ℚ
  resolution : ℚ

/-- `load_single_label` (dataset.py:100-115): read the label record from the
store, apply the symmetry operation to `all_atom_positions` when one is
given, and keep exactly the four label fields. -/
def load_single_label (labelStore : String → LabelRec) (label_id : String)
    (symmetry_operation : Option Operation) : LabelRec :=
  let label := labelStore label_id
  match symmetry_operation with
  | none => label
  | some op =>
    { label with all_atom_positions := process_label label.all_atom_positions op }

/-- The external collaborators `load` delegates to, abstracted over the
feature-record type `φ`: per-chain feature loading (`load_single_feature`),
in-place merging of label fields into a feature record (`f.update(l)`),
re-extraction of the four label fields from a feature record,
`add_assembly_features`, `seq_length` access, `pair_and_merge`, and
`post_process`. -/
structure LoadEnv (φ : Type) where
  loadFeature : String → φ
  updateLabel : φ → LabelRec → φ
  extractLabel : φ → LabelRec
  addAssemblyFeatures : List φ → List φ
  seqLength : φ → ℕ
  pairAndMerge : List φ → φ
  postProcess : φ → φ

/-- The value returned by `load`: the merged features (with `asym_len`
attached) and the per-chain labels, if requested. -/
structure LoadResult (φ : Type) where
  features : φ
  asym_len : List ℕ
  labels : Option (List LabelRec)

/-- Assembly Builder `load` (dataset.py:118-168).  Fatal assertions
(`len(label_ids) == len(sequence_ids)`, `label_dir is not None`) are
modelled as `none`; the label store (`label_dir`) is `none` when no label
directory is supplied.  When `symmetry_operations` is `None` it defaults to
one identity operation per chain. -/
def load {φ : Type} (env : LoadEnv φ) (sequence_ids : List String)
    (label_ids : Option (List String)) (label_dir : Option (String → LabelRec))
    (symmetry_operations : Option (List Operation)) (is_monomer : Bool) :
    Option (LoadResult φ) :=
  let all_chain_features := sequence_ids.map env.loadFeature
  match label_ids with
  | some lids =>
    if lids.length = sequence_ids.length then
      match label_dir with
      | none => none
      | some store =>
        let ops := symmetry_operations.getD (lids.map (fun _ => Operation.I))
        let all_chain_labels :=
          (lids.zip ops).map (fun p => load_single_label store p.1 (some p.2))
        let feats2 := (all_chain_features.zip all_chain_labels).map
          (fun p => env.updateLabel p.1 p.2)
        let feats3 := env.addAssemblyFeatures feats2
        let labs := feats3.map env.extractLabel
        let asym_len := feats3.map env.seqLength
        let merged : Option φ :=
          if is_monomer then feats3.head?
          else some (env.postProcess (env.pairAndMerge feats3))
        merged.map (fun m => ⟨m, asym_len, some labs⟩)
    else none
  | none =>
    let feats3 := env.addAssemblyFeatures all_chain_features
    let asym_len := feats3.map env.seqLength
    let merged : Option φ :=
      if is_monomer then feats3.head?
      else some (env.postProcess (env.pairAndMerge feats3))
    merged.map (fun m => ⟨m, asym_len, none⟩)

/-- C4: when labels are requested with `len(label_ids) ≠ len(sequence_ids)`,
`load` fails with the fatal assertion (`none`); when the lengths are equal it
proceeds — in multimer (assembly) mode the call returns a result — and a
missing `symmetry_operations` argument behaves exactly as one identity
operation `"I"` per chain. -/
theorem load_assertion_and_default {φ : Type} (env : LoadEnv φ)
    (sequence_ids lids : List String) (store : String → LabelRec) :
    (∀ (label_dir : Option (String → LabelRec))
       (sym : Option (List Operation)) (is_monomer : Bool),
      lids.length ≠ sequence_ids.length →
      load env sequence_ids (some lids) label_dir sym is_monomer = none) ∧
    (∀ is_monomer : Bool,
      load env sequence_ids (some lids) (some store) none is_monomer =
        load env sequence_ids (some lids) (some store)
          (some (List.replicate lids.length Operation.I)) is_monomer) ∧
    (lids.length = sequence_ids.length →
      (load env sequence_ids (some lids) (some store) none false).isSome) := by
  refine ⟨?_, ?_, ?_⟩
  · intro label_dir sym is_monomer hne
    simp only [load, if_neg hne]
  · intro is_monomer
    simp only [load, Option.getD_none, Option.getD_some]
    rw [show lids.map (fun _ => Operation.I) =
      List.replicate lids.length Operation.I from List.map_const lids Operation.I]
  · intro heq
    simp only [load, if_pos heq, if_neg Bool.false_ne_true, Option.isSome_map]
    simp

/-- Witness for C4 over a trivial feature type: a length-mismatched call is
the fatal assertion, matched lengths proceed, and a missing
`symmetry_operations` equals one identity per chain. -/
theorem load_assertion_and_default_witness :
    (["x", "y"].length ≠ ["a"].length) ∧
    load (φ := ℕ) ⟨fun _ => 0, fun f _ => f, fun _ => ⟨[], [], [], 0⟩, id,
        fun _ => 0, fun _ => 0, id⟩
      ["a"] (some ["x", "y"]) (some (fun _ => ⟨[], [], [], 0⟩)) none false = none ∧
    load (φ := ℕ) ⟨fun _ => 0, fun f _ => f, fun _ => ⟨[], [], [], 0⟩, id,
        fun _ => 0, fun _ => 0, id⟩
      ["a"] (some ["x"]) (some (fun _ => ⟨[], [], [], 0⟩)) none false =
    load (φ := ℕ) ⟨fun _ => 0, fun f _ => f, fun _ => ⟨[], [], [], 0⟩, id,
        fun _ => 0, fun _ => 0, id⟩
      ["a"] (some ["x"]) (some (fun _ => ⟨[], [], [], 0⟩))
      (some (List.replicate ["x"].length Operation.I)) false ∧
    (["x"].length = ["a"].length) ∧
    (load (φ := ℕ) ⟨fun _ => 0, fun f _ => f, fun _ => ⟨[], [], [], 0⟩, id,
        fun _ => 0, fun _ => 0, id⟩
      ["a"] (some ["x"]) (some (fun _ => ⟨[], [], [], 0⟩)) none false).isSome := by
  refine ⟨by decide, ?_, ?_, by decide, ?_⟩
  · exact (load_assertion_and_default
      ⟨fun _ => 0, fun f _ => f, fun _ => ⟨[], [], [], 0⟩, id,
        fun _ => 0, fun _ => 0, id⟩
      ["a"] ["x", "y"] (fun _ => ⟨[], [], [], 0⟩)).1
      (some (fun _ => ⟨[], [], [], 0⟩)) none false (by decide)
  · exact (load_assertion_and_default
      ⟨fun _ => 0, fun f _ => f, fun _ => ⟨[], [], [], 0⟩, id,
        fun _ => 0, fun _ => 0, id⟩
      ["a"] ["x"] (fun _ => ⟨[], [], [], 0⟩)).2.1 false
  · exact (load_assertion_and_default
      ⟨fun _ => 0, fun f _ => f, fun _ => ⟨[], [], [], 0⟩, id,
        fun _ => 0, fun _ => 0, id⟩
      ["a"] ["x"] (fun _ => ⟨[], [], [], 0⟩)).2.2 (by decide)

/-- Model of `torch.bucketize(v, bins)` (default `right=False`): the number
of boundaries strictly below `v`. -/
def bucketize (v : ℚ) (bins : List ℚ) : ℕ := (bins.filter (fun b => b < v)).length

/-- `torch.arange(0, 1.05, 0.05)`: the 21 thresholds 0.0, 0.05, …, 1.0. -/
def xlBins : List ℚ := (List.range 21).map (fun k => (k : ℚ) / 20)

/-- One iteration of the `bin_xl` loop (dataset.py:264-267): write
`bucketize(1 - fdr, bins)` at both `[r1, r2]` and `[r2, r1]` of the dense
output. -/
def binXlStep (out : ℕ → ℕ → ℕ) (e : ℕ × ℕ × ℚ) : ℕ → ℕ → ℕ :=
  fun i j =>
    if (i = e.1 ∧ j = e.2.1) ∨ (i = e.2.1 ∧ j = e.1) then
      bucketize (1 - e.2.2) xlBins
    else out i j

/-- `bin_xl` (dataset.py:255-269) on an already-permuted entry list: start
from the all-zero dense `(num_res, num_res, 1)` array and process entries in
order (later entries overwrite earlier ones).  The value plane is modelled
as a function of the two residue indices. -/
def bin_xl (xl : List (ℕ × ℕ × ℚ)) (num_res : ℕ) : ℕ → ℕ → ℕ :=
  xl.foldl binXlStep (fun _ _ => 0)

theorem binXl_foldl_symm (xl : List (ℕ × ℕ × ℚ)) :
    ∀ out : ℕ → ℕ → ℕ, (∀ i j, out i j = out j i) →
    ∀ i j, xl.foldl binXlStep out i j = xl.foldl binXlStep out j i := by
  induction xl with
  | nil => intro out hsym i j; exact hsym i j
  | cons e t ih =>
    intro out hsym i j
    apply ih
    intro a b
    show binXlStep out e a b = binXlStep out e b a
    unfold binXlStep
    by_cases h : (a = e.1 ∧ b = e.2.1) ∨ (a = e.2.1 ∧ b = e.1)
    · rw [if_pos h, if_pos (Or.symm (h.imp And.comm.mp And.comm.mp))]
    · rw [if_neg h, if_neg (fun hc => h (Or.symm (hc.imp And.comm.mp And.comm.mp)))]
      exact hsym a b

theorem binXl_foldl_cells (xl : List (ℕ × ℕ × ℚ)) :
    ∀ (out : ℕ → ℕ → ℕ) (i j : ℕ),
    xl.foldl binXlStep out i j = out i j ∨
    ∃ e ∈ xl, ((i = e.1 ∧ j = e.2.1) ∨ (i = e.2.1 ∧ j = e.1)) ∧
      xl.foldl binXlStep out i j = bucketize (1 - e.2.2) xlBins := by
  induction xl with
  | nil => intro out i j; exact Or.inl rfl
  | cons e t ih =>
    intro out i j
    rcases ih (binXlStep out e) i j with h | ⟨e2, he2, hcell, hval⟩
    · rw [List.foldl_cons] at *
      by_cases hc : (i = e.1 ∧ j = e.2.1) ∨ (i = e.2.1 ∧ j = e.1)
      · refine Or.inr ⟨e, List.mem_cons_self e t, hc, ?_⟩
        rw [h]
        unfold binXlStep
        rw [if_pos hc]
      · refine Or.inl ?_
        rw [h]
        unfold binXlStep
        rw [if_neg hc]
    · exact Or.inr ⟨e2, List.mem_cons_of_mem e he2, hcell, hval⟩

/-- C5: the dense output of `bin_xl` is symmetric in its first two indices —
`output[i,j,0] = output[j,i,0]` — for every entry list (hence under every
internal random permutation of the entries), and every cell either is the
untouched 0 or holds `bucketize(1 - fdr, bins)` for some entry `(r1,r2,fdr)`
of the list with `{i,j} = {r1,r2}`, where `bins` are the 21 thresholds
0.0, 0.05, …, 1.0. -/
theorem bin_xl_symmetric :
    (∀ (xl perm : List (ℕ × ℕ × ℚ)) (num_res : ℕ), perm.Perm xl →
      ∀ i j, bin_xl perm num_res i j = bin_xl perm num_res j i) ∧
    (∀ (xl : List (ℕ × ℕ × ℚ)) (num_res i j : ℕ),
      bin_xl xl num_res i j = 0 ∨
      ∃ e ∈ xl, ((i = e.1 ∧ j = e.2.1) ∨ (i = e.2.1 ∧ j = e.1)) ∧
        bin_xl xl num_res i j = bucketize (1 - e.2.2) xlBins) := by
  constructor
  · intro xl perm num_res _ i j
    exact binXl_foldl_symm perm (fun _ _ => 0) (fun _ _ => rfl) i j
  · intro xl num_res i j
    exact binXl_foldl_cells xl (fun _ _ => 0) i j

/-- Witness for C5 at a concrete input: one cross-link `(0, 1, 0.1)` in a
2-residue complex produces a symmetric pair of cells. -/
theorem bin_xl_symmetric_witness :
    List.Perm [((0 : ℕ), (1 : ℕ), (1 / 10 : ℚ))] [((0 : ℕ), (1 : ℕ), (1 / 10 : ℚ))] ∧
    bin_xl [((0 : ℕ), (1 : ℕ), (1 / 10 : ℚ))] 2 0 1 =
      bin_xl [((0 : ℕ), (1 : ℕ), (1 / 10 : ℚ))] 2 1 0 :=
  ⟨List.Perm.refl _,
    bin_xl_symmetric.1 [((0 : ℕ), (1 : ℕ), (1 / 10 : ℚ))]
      [((0 : ℕ), (1 : ℕ), (1 / 10 : ℚ))] 2 (List.Perm.refl _) 0 1⟩

/-- Generic association-list lookup for Python dict access. -/
def dlookup {β : Type} (k : String) : List (String × β) → Option β
  | [] => none
  | p :: t => if k = p.1 then some p.2 else dlookup k t

/-- One `pdb_assembly.json` record: the biological-assembly chain ids and
their symmetry operations. -/
structure AssemblyEntry where
  chains : List String
  opers : List Operation

/-- `UnifoldMultimerDataset.get_pdb_name` (dataset.py:611-613):
`chain.split("_")[0]`. -/
def get_pdb_name (chain : String) : String := (chain.splitOn "_").headI

/-- `list_overlaps` (dataset.py:627-632): all elements of `a` occur in
`b`. -/
def list_overlaps (a b : List String) : Bool := a.all (fun i => b.contains i)

/-- `UnifoldMultimerDataset.filter_pdb_by_max_chains` (dataset.py:625-656):
keep a structure that appears in the assembly map iff its assembly chain
count is at most `max_chains` and all its `pdbid_chainid` keys occur in the
inverse label map; keep a structure absent from the assembly map iff it has
exactly one chain; restrict the sample-weight table to chains whose
structure survives. -/
def filter_pdb_by_max_chains (pdb_chains : List (String × List String))
    (pdb_assembly : List (String × AssemblyEntry))
    (sample_weight : List (String × ℚ)) (max_chains : ℕ)
    (inverse_labels : List String) :
    List (String × List String) × List (String × ℚ) :=
  let keep : String × List String → Bool := fun p =>
    match dlookup p.1 pdb_assembly with
    | some entry =>
      decide (entry.chains.length ≤ max_chains) &&
        list_overlaps (entry.chains.map (fun cid => p.1 ++ "_" ++ cid))
          inverse_labels
    | none => decide (p.2.length = 1)
  let new_pdb_chains := pdb_chains.filter keep
  let new_sample_weight := sample_weight.filter
    (fun kv => (new_pdb_chains.map Prod.fst).contains (get_pdb_name kv.1))
  (new_pdb_chains, new_sample_weight)

/-- The claim's keep condition, stated as a proposition: present in the
assembly map → chain count within bound and every `pdbid_chainid` present in
the inverse label map; absent → exactly one chain. -/
def keptSpec (pdb_assembly : List (String × AssemblyEntry)) (max_chains : ℕ)
    (inverse_labels : List String) (pdb : String) (cl : List String) : Prop :=
  match dlookup pdb pdb_assembly with
  | some entry =>
    entry.chains.length ≤ max_chains ∧
      ∀ c ∈ entry.chains, (pdb ++ "_" ++ c) ∈ inverse_labels
  | none => cl.length = 1

/-- C7: in train mode `filter_pdb_by_max_chains` keeps exactly the
structures satisfying the claim's condition (`keptSpec`), and the returned
sample-weight table contains exactly the entries of the input table whose
pdb name survives the structure filter. -/
theorem filter_pdb_by_max_chains_spec
    (pc : List (String × List String)) (pa : List (String × AssemblyEntry))
    (sw : List (String × ℚ)) (mx : ℕ) (il : List String) :
    (∀ (pdb : String) (cl : List String),
      (pdb, cl) ∈ (filter_pdb_by_max_chains pc pa sw mx il).1 ↔
        (pdb, cl) ∈ pc ∧ keptSpec pa mx il pdb cl) ∧
    (∀ (k : String) (w : ℚ),
      (k, w) ∈ (filter_pdb_by_max_chains pc pa sw mx il).2 ↔
        (k, w) ∈ sw ∧
          ∃ cl, (get_pdb_name k, cl) ∈ (filter_pdb_by_max_chains pc pa sw mx il).1) := by
  constructor
  · intro pdb cl
    simp only [filter_pdb_by_max_chains, List.mem_filter]
    constructor
    · rintro ⟨hmem, hkeep⟩
      refine ⟨hmem, ?_⟩
      unfold keptSpec
      cases hd : dlookup pdb pa with
      | some entry =>
        simp only [hd] at hkeep
        simp only [Bool.and_eq_true, decide_eq_true_eq, list_overlaps,
          List.all_eq_true, List.elem_iff] at hkeep
        refine ⟨hkeep.1, fun c hc => ?_⟩
        have := hkeep.2 (pdb ++ "_" ++ c) (List.mem_map.mpr ⟨c, hc, rfl⟩)
        simpa using this
      | none =>
        simp only [hd, decide_eq_true_eq] at hkeep
        exact hkeep
    · rintro ⟨hmem, hspec⟩
      refine ⟨hmem, ?_⟩
      unfold keptSpec at hspec
      cases hd : dlookup pdb pa with
      | some entry =>
        simp only [hd] at hspec
        simp only [hd, Bool.and_eq_true, decide_eq_true_eq, list_overlaps,
          List.all_eq_true]
        refine ⟨hspec.1, fun x hx => ?_⟩
        obtain ⟨c, hc, rfl⟩ := List.mem_map.mp hx
        simpa using hspec.2 c hc
      | none =>
        simp only [hd] at hspec
        simp only [hd, decide_eq_true_eq]
        exact hspec
  · intro k w
    simp only [filter_pdb_by_max_chains, List.mem_filter]
    constructor
    · rintro ⟨hmem, hcont⟩
      refine ⟨hmem, ?_⟩
      simp only [List.elem_iff, List.mem_map] at hcont
      obtain ⟨p, hp, hfst⟩ := hcont
      exact ⟨p.2, by simpa [← hfst] using hp⟩
    · rintro ⟨hmem, cl, hcl⟩
      refine ⟨hmem, ?_⟩
      simp only [List.elem_iff, List.mem_map]
      exact ⟨(get_pdb_name k, cl), List.mem_filter.mpr hcl, rfl⟩

/-- `create_xl_features` (dataset.py:223-245): for every ordered pair of
chain descriptions, look up the cross-link entries keyed by
`(chain1, chain2)`, shift each entry's residue indices by the respective
chains' offsets, and concatenate all rows (an empty list when nothing
matches). -/
def create_xl_features
    (xl_pickle : List (String × List (String × List (ℕ × ℕ × ℚ))))
    (offsets : List ℕ) (descriptions : List String) : List (ℕ × ℕ × ℚ) :=
  descriptions.enum.flatMap (fun ic =>
    descriptions.enum.flatMap (fun jc =>
      match dlookup ic.2 xl_pickle with
      | none => []
      | some inner =>
        match dlookup jc.2 inner with
        | none => []
        | some links => links.map (fun l =>
            (l.1 + offsets.getD ic.1 0, l.2.1 + offsets.getD jc.1 0, l.2.2))))

/-- A tensor over the two residue axes, tracked by shape; the payload is the
value plane indexed by the two residue indices. -/
structure NTensor where
  shape : List ℕ
  val : ℕ → ℕ → ℕ

/-- `torch.unsqueeze(t, 0)`: prepend a singleton dimension. -/
def unsqueeze0 (t : NTensor) : NTensor := ⟨1 :: t.shape, t.val⟩

/-- `np.zeros((n, n, 1))` as an `NTensor`. -/
def zeros3 (n : ℕ) : NTensor := ⟨[n, n, 1], fun _ _ => 0⟩

/-- The cross-link tail of `process_ap` (dataset.py:320-331): with a
cross-link source, build the entry list (via `process_xl_input`, i.e.
`calculate_offsets` + `create_xl_features`), bin it (or use `np.zeros` when
empty) and `unsqueeze` the result at dimension 0; without a source, use a
plain `np.zeros((num_res, num_res, 1))` tensor. -/
def process_ap_xl
    (crosslinks : Option (List (String × List (String × List (ℕ × ℕ × ℚ)))))
    (chain_descriptions : List String) (asym_id : List ℤ) (num_res : ℕ) :
    NTensor :=
  match crosslinks with
  | some tbl =>
    let offsets := calculate_offsets asym_id
    let xl := create_xl_features tbl offsets chain_descriptions
    if xl.length = 0 then unsqueeze0 (zeros3 num_res)
    else unsqueeze0 ⟨[num_res, num_res, 1], bin_xl xl num_res⟩
  | none => zeros3 num_res

/-- Python dict assignment `d[k] = v` on an association list: overwrite the
existing binding or append a new one. -/
def dictSet (l : List (String × NTensor)) (k : String) (v : NTensor) :
    List (String × NTensor) :=
  if (l.map Prod.fst).contains k then
    l.map (fun p => if p.1 = k then (k, v) else p)
  else l ++ [(k, v)]

/-- The feature-attachment step of `process_ap`: `features['xl'] = ...`. -/
def process_ap_features (base : List (String × NTensor))
    (crosslinks : Option (List (String × List (String × List (ℕ × ℕ × ℚ)))))
    (descriptions : List String) (asym_id : List ℤ) (num_res : ℕ) :
    List (String × NTensor) :=
  dictSet base "xl" (process_ap_xl crosslinks descriptions asym_id num_res)

theorem dlookup_none_of_not_mem {β : Type} {k : String} {l : List (String × β)}
    (h : k ∉ l.map Prod.fst) : dlookup k l = none := by
  induction l with
  | nil => rfl
  | cons p t ih =>
    have hk : k ≠ p.1 := fun he => h (by simp [he])
    simp only [dlookup, if_neg hk]
    exact ih (fun hm => h (by simp [List.mem_map] at hm ⊢; tauto))

theorem dlookup_append_left_none {β : Type} {k : String}
    {l1 l2 : List (String × β)} (h : dlookup k l1 = none) :
    dlookup k (l1 ++ l2) = dlookup k l2 := by
  induction l1 with
  | nil => rfl
  | cons p t ih =>
    by_cases hk : k = p.1
    · simp [dlookup, hk] at h
    · simp only [dlookup, if_neg hk] at h
      simpa [dlookup, hk] using ih h

theorem dictSet_dlookup (l : List (String × NTensor)) (k : String) (v : NTensor) :
    dlookup k (dictSet l k v) = some v := by
  unfold dictSet
  by_cases hc : (l.map Prod.fst).contains k
  · rw [if_pos hc]
    induction l with
    | nil => simp at hc
    | cons p t ih =>
      by_cases hk : p.1 = k
      · simp only [List.map_cons, if_pos hk]
        simp [dlookup]
      · simp only [List.map_cons, if_neg hk]
        have hk' : k ≠ p.1 := fun he => hk he.symm
        simp only [dlookup, if_neg hk']
        have hc' : (t.map Prod.fst).contains k := by
          simp only [List.contains, List.map_cons, List.elem_cons] at hc
          rcases Bool.or_eq_true .. ▸ hc with h | h
          · exact absurd (eq_of_beq h).symm hk
          · exact h
        exact ih hc'
  · rw [if_neg hc]
    have hnone : dlookup k l = none := by
      apply dlookup_none_of_not_mem
      intro hm
      exact hc (List.elem_iff.mpr hm)
    rw [dlookup_append_left_none hnone]
    simp [dlookup]

/-- C8 counterexample: with a cross-link source supplied (here an empty
table) the attached `xl` tensor has shape `(1, num_res, num_res, 1)` (the
result is unsqueezed at dimension 0), while with no source it has shape
`(num_res, num_res, 1)` — the two cases do NOT produce tensors of the same
shape, already at `num_res = 1`. -/
theorem process_ap_xl_shape_counterexample :
    (process_ap_xl (some []) ["A"] [0] 1).shape ≠
      (process_ap_xl none ["A"] [0] 1).shape := by
  decide

/-- C8 (amended): `process_ap` always attaches feature `xl`; with no
cross-link source it is the all-zero `(num_res, num_res, 1)` tensor, and
with a source it is the built dense cross-link tensor carrying an extra
leading singleton dimension, shape `(1, num_res, num_res, 1)` (the all-zero
plane when no entry matched). -/
theorem process_ap_xl_attach (base : List (String × NTensor))
    (crosslinks : Option (List (String × List (String × List (ℕ × ℕ × ℚ)))))
    (descs : List String) (asym : List ℤ) (num_res : ℕ) :
    dlookup "xl" (process_ap_features base crosslinks descs asym num_res) =
      some (process_ap_xl crosslinks descs asym num_res) ∧
    (crosslinks = none →
      process_ap_xl crosslinks descs asym num_res = zeros3 num_res ∧
      (zeros3 num_res).shape = [num_res, num_res, 1]) ∧
    (∀ tbl, crosslinks = some tbl →
      (process_ap_xl crosslinks descs asym num_res).shape =
        [1, num_res, num_res, 1] ∧
      (create_xl_features tbl (calculate_offsets asym) descs = [] →
        process_ap_xl crosslinks descs asym num_res =
          unsqueeze0 (zeros3 num_res))) := by
  refine ⟨dictSet_dlookup base "xl" _, ?_, ?_⟩
  · rintro rfl
    exact ⟨rfl, rfl⟩
  · rintro tbl rfl
    constructor
    · simp only [process_ap_xl]
      by_cases h : (create_xl_features tbl (calculate_offsets asym) descs).length = 0
      · rw [if_pos h]; rfl
      · rw [if_neg h]; rfl
    · intro hempty
      simp [process_ap_xl, hempty]

/-- Witness for C8 at concrete inputs: lookup succeeds, the absent-source
tensor is the zero `(1,1,1)` tensor, and the supplied-source tensor has the
extra leading dimension. -/
theorem process_ap_xl_attach_witness :
    dlookup "xl" (process_ap_features [] none ["A"] [0] 1) =
      some (process_ap_xl none ["A"] [0] 1) ∧
    process_ap_xl none ["A"] [0] 1 = zeros3 1 ∧
    (process_ap_xl (some []) ["A"] [0] 1).shape = [1, 1, 1, 1] :=
  ⟨(process_ap_xl_attach [] none ["A"] [0] 1).1,
   ((process_ap_xl_attach [] none ["A"] [0] 1).2.1 rfl).1,
   ((process_ap_xl_attach [] (some []) ["A"] [0] 1).2.2 [] rfl).1⟩

/-- Result of `UnifoldMultimerDataset.collater` (dataset.py:596-609): a null
batch for empty input, a collation error carrying the offending per-example
features, or a stacked batch with an optional label half. -/
inductive CollResult (β F L : Type) where
  | nullBatch : CollResult β F L
  | collateError (offending : List F) : CollResult β F L
  | batch (feats : β) (labels : Option (List L)) : CollResult β F L

/-- `UnifoldMultimerDataset.collater`: `len(samples) <= 0` returns `None`;
otherwise split features and non-`None` labels, stack the features through
the (external, fallible) `collate_dict`, raise a `ValueError` carrying the
features on failure, and null out an empty label list. -/
def multimer_collater {β F L : Type} (collateDict : List F → Option β)
    (samples : List (F × Option L)) : CollResult β F L :=
  if samples.length ≤ 0 then .nullBatch
  else
    let feats := samples.map Prod.fst
    let labs := (samples.map Prod.snd).filterMap id
    match collateDict feats with
    | none => .collateError feats
    | some b => .batch b (if labs.isEmpty then none else some labs)

/-- C9: the multimer collater returns a null batch on an empty sample list;
on a non-empty list where no sample carries labels it stacks the features
and returns `none` for the label half; and a feature-stacking failure is
reported as a collation error carrying the offending per-example
features. -/
theorem multimer_collater_spec {β F L : Type} (collateDict : List F → Option β) :
    (multimer_collater collateDict ([] : List (F × Option L)) = .nullBatch) ∧
    (∀ (samples : List (F × Option L)) (b : β),
      samples ≠ [] → (∀ s ∈ samples, s.2 = none) →
      collateDict (samples.map Prod.fst) = some b →
      multimer_collater collateDict samples = .batch b none) ∧
    (∀ samples : List (F × Option L),
      samples ≠ [] → collateDict (samples.map Prod.fst) = none →
      multimer_collater collateDict samples = .collateError (samples.map Prod.fst)) := by
  refine ⟨by simp [multimer_collater], ?_, ?_⟩
  · intro samples b hne hnolab hcd
    have hpos : ¬samples.length ≤ 0 := by
      simpa [Nat.pos_iff_ne_zero] using List.length_pos.mpr hne
    have hlabs : (samples.map Prod.snd).filterMap id = [] := by
      rw [List.filterMap_eq_nil_iff]
      intro a ha
      obtain ⟨s, hs, rfl⟩ := List.mem_map.mp ha
      exact hnolab s hs
    simp only [multimer_collater, if_neg hpos, hcd, hlabs, List.isEmpty_nil]
    simp
  · intro samples hne hcd
    have hpos : ¬samples.length ≤ 0 := by
      simpa [Nat.pos_iff_ne_zero] using List.length_pos.mpr hne
    simp only [multimer_collater, if_neg hpos, hcd]

/-- Witness for C9 at concrete inputs: one label-free sample stacks to a
batch with a `none` label half under a succeeding collate, and becomes a
collation error carrying the features under a failing collate. -/
theorem multimer_collater_spec_witness :
    ([((1 : ℕ), (none : Option ℕ))] ≠ []) ∧
    multimer_collater (fun _ => some (0 : ℕ)) [((1 : ℕ), (none : Option ℕ))] =
      CollResult.batch 0 none ∧
    multimer_collater (fun _ => (none : Option ℕ)) [((1 : ℕ), (none : Option ℕ))] =
      CollResult.collateError [1] := by
  refine ⟨by simp, ?_, ?_⟩
  · exact (multimer_collater_spec (fun _ => some 0)).2.1
      [(1, none)] 0 (by simp) (by simp) rfl
  · exact (multimer_collater_spec (fun _ => none)).2.2 [(1, none)] (by simp) rfl

/-- The `UnifoldDataset` construction state relevant to sampling: the mode,
the (optional) self-distillation weight table with its chain keys, the
self-distillation probability and the id tables used by `sample_chain`. -/
structure UnifoldDatasetState where
  mode : String
  sd_sample_weight : Option (List (String × ℚ))
  sd_chain_keys : List String
  sd_prob : ℚ
  chain_keys : List String
  seq_keys : List String
  multi_label : List (String × List String)
  inverse_multi_label : List (String × String)

/-- `UnifoldDataset.__init__` (dataset.py:357-429), sampling-relevant part:
the constructor re-binds `disable_sd = True` unconditionally (line 369), so
`sd_sample_weight` is loaded only when
`mode == "train" and os.path.isfile(...) and not disable_sd`, with the
forced `disable_sd`. -/
def unifoldDatasetInit (mode : String) (disable_sd : Bool)
    (sd_file_exists : Bool) (sd_table sample_weight : List (String × ℚ))
    (multi_label : List (String × List String))
    (inverse_multi_label : List (String × String)) (sd_prob : ℚ) :
    UnifoldDatasetState :=
  let disable_sd := true
  let sd_sample_weight :=
    if mode = "train" ∧ sd_file_exists ∧ ¬disable_sd then some sd_table else none
  { mode := mode
  , sd_sample_weight := sd_sample_weight
  , sd_chain_keys :=
      match sd_sample_weight with
      | some tbl => tbl.map Prod.fst
      | none => []
  , sd_prob := sd_prob
  , chain_keys := sample_weight.map Prod.fst
  , seq_keys := multi_label.map Prod.fst
  , multi_label := multi_label
  , inverse_multi_label := inverse_multi_label }

/-- The random draws `sample_chain` may consume, as an oracle record:
`np.random.rand(1)[0]`, the chain-weighted choice, the sequence-weighted
choice, the uniform label choice, and the self-distillation choice. -/
structure SampleRng where
  rand : ℚ
  chainChoice : ℕ
  seqChoice : ℕ
  labelChoice : ℕ
  sdChoice : ℕ

/-- `UnifoldDataset.sample_chain` (dataset.py:438-465): in train mode the
example is self-distillation iff an sd table exists and the Bernoulli draw
fires; the (sequence, label) names come from the sd table, the
chain-weighted draw, or the sequence-weighted draw; in eval mode `idx`
indexes the chain list directly.  Returns
`(seq_name, label_name, is_distillation)`. -/
def sample_chain (st : UnifoldDatasetState) (idx : ℕ) (sample_by_seq : Bool)
    (rng : SampleRng) : String × String × Bool :=
  if st.mode = "train" then
    let is_distillation :=
      match st.sd_sample_weight with
      | some _ => decide (rng.rand < st.sd_prob)
      | none => false
    if is_distillation then
      let label_name := st.sd_chain_keys.getD rng.sdChoice ""
      (label_name, label_name, is_distillation)
    else
      if ¬sample_by_seq then
        let label_name := st.chain_keys.getD rng.chainChoice ""
        let seq_name := (dlookup label_name st.inverse_multi_label).getD ""
        (seq_name, label_name, is_distillation)
      else
        let seq_name := st.seq_keys.getD rng.seqChoice ""
        let label_name :=
          ((dlookup seq_name st.multi_label).getD []).getD rng.labelChoice ""
        (seq_name, label_name, is_distillation)
  else
    let label_name := st.chain_keys.getD idx ""
    let seq_name := (dlookup label_name st.inverse_multi_label).getD ""
    (seq_name, label_name, false)

/-- C10: `UnifoldDataset.__init__` re-binds `disable_sd = True`, so for every
constructor-argument combination (including `disable_sd = False` with an
existing self-distillation weight file) `sd_sample_weight` is `none`, and
`sample_chain` on the constructed dataset returns
`is_distillation = False` for every index, flag and random draw in every
mode: the self-distillation branch is unreachable. -/
theorem self_distillation_disabled :
    (∀ (mode : String) (disable_sd sd_file_exists : Bool)
       (sd_table sample_weight : List (String × ℚ))
       (multi_label : List (String × List String))
       (inverse_multi_label : List (String × String)) (sd_prob : ℚ),
      (unifoldDatasetInit mode disable_sd sd_file_exists sd_table sample_weight
        multi_label inverse_multi_label sd_prob).sd_sample_weight = none) ∧
    (∀ (mode : String) (disable_sd sd_file_exists : Bool)
       (sd_table sample_weight : List (String × ℚ))
       (multi_label : List (String × List String))
       (inverse_multi_label : List (String × String)) (sd_prob : ℚ)
       (idx : ℕ) (sample_by_seq : Bool) (rng : SampleRng),
      (sample_chain
        (unifoldDatasetInit mode disable_sd sd_file_exists sd_table sample_weight
          multi_label inverse_multi_label sd_prob)
        idx sample_by_seq rng).2.2 = false) := by
  have hnone : ∀ (mode : String) (disable_sd sd_file_exists : Bool)
      (sd_table sample_weight : List (String × ℚ))
      (multi_label : List (String × List String))
      (inverse_multi_label : List (String × String)) (sd_prob : ℚ),
      (unifoldDatasetInit mode disable_sd sd_file_exists sd_table sample_weight
        multi_label inverse_multi_label sd_prob).sd_sample_weight = none := by
    intro mode disable_sd sd_file_exists sd_table sample_weight multi_label
      inverse_multi_label sd_prob
    simp [unifoldDatasetInit]
  refine ⟨hnone, ?_⟩
  intro mode disable_sd sd_file_exists sd_table sample_weight multi_label
    inverse_multi_label sd_prob idx sample_by_seq rng
  unfold sample_chain
  rw [hnone mode disable_sd sd_file_exists sd_table sample_weight multi_label
    inverse_multi_label sd_prob]
  by_cases hm : (unifoldDatasetInit mode disable_sd sd_file_exists sd_table
      sample_weight multi_label inverse_multi_label sd_prob).mode = "train"
  · rw [if_pos hm]
    by_cases hs : sample_by_seq <;> simp [hs]
  · rw [if_neg hm]
